import Mathlib

/-!
Shallow embedding of the job-recommendation system.

Text is modelled as `List Char`; pure textual transformations from
`src/utils/preprocessing.py` and `src/resume_job_matcher/utils/resume_processor.py`
are translated function by function.  External resources (the NLTK word
tokenizer, the stopword list, the WordNet lemmatizer, the sentence-embedding
model and the trained neural networks) are opaque to the repository's code and
are passed as function parameters.  Match scores are modelled as rationals.
-/

/-- Text is a list of characters. -/
abbrev Text := List Char

/-- The regex class [a-z]. -/
def isLowerCh (c : Char) : Bool := 'a' ≤ c && c ≤ 'z'

/-- The regex class [A-Z]. -/
def isUpperCh (c : Char) : Bool := 'A' ≤ c && c ≤ 'Z'

/-- The regex class [0-9] (Python's \d restricted to ASCII). -/
def isDigitCh (c : Char) : Bool := '0' ≤ c && c ≤ '9'

/-- The regex class [a-zA-Z]. -/
def isAlphaCh (c : Char) : Bool := isLowerCh c || isUpperCh c

/-- Python's \s whitespace class, restricted to its ASCII members. -/
def isSpaceCh (c : Char) : Bool :=
  c == ' ' || c == '\t' || c == '\n' || c == '\r' || c == '\x0b' || c == '\x0c'

/-- One zero-width-lookaround substitution pass: a single space is inserted
between every adjacent pair (c1, c2) with p c1 and q c2.  This is the meaning
of re.sub with a lookbehind for p and a lookahead for q, replacement a space,
as used in fix_spacing. -/
def insertBetween (p q : Char → Bool) : Text → Text
  | [] => []
  | [c] => [c]
  | c1 :: c2 :: rest =>
      if p c1 && q c2 then c1 :: ' ' :: insertBetween p q (c2 :: rest)
      else c1 :: insertBetween p q (c2 :: rest)

/-- The consuming substitution re.sub(([a-z])([A-Z]), "\1 \2"): after a match
both captured characters are consumed, and scanning resumes after them. -/
def spaceCamelPairs : Text → Text
  | [] => []
  | [c] => [c]
  | c1 :: c2 :: rest =>
      if isLowerCh c1 && isUpperCh c2 then c1 :: ' ' :: c2 :: spaceCamelPairs rest
      else c1 :: spaceCamelPairs (c2 :: rest)

/-- fix_spacing from src/utils/preprocessing.py (identical in
src/resume_job_matcher/utils/resume_processor.py): four regex passes inserting
boundary spaces at lowercase-to-uppercase, letter-to-digit and digit-to-letter
transitions, then the consuming lowercase/uppercase pass. -/
def fix_spacing (text : Text) : Text :=
  spaceCamelPairs
    (insertBetween isDigitCh isAlphaCh
      (insertBetween isAlphaCh isDigitCh
        (insertBetween isLowerCh isUpperCh text)))

/-- Python str.lower restricted to ASCII: uppercase letters are shifted by 32. -/
def toLowerCh (c : Char) : Char :=
  if isUpperCh c then Char.ofNat (c.toNat + 32) else c

/-- re.sub([^a-z0-9\s], ""): drop every character outside lowercase letters,
digits and whitespace. -/
def removeSpecial (t : Text) : Text :=
  t.filter (fun c => isLowerCh c || isDigitCh c || isSpaceCh c)

/-- re.sub(\s+, " "): every maximal run of whitespace becomes one space. -/
def collapseWs : Text → Text
  | [] => []
  | [c] => if isSpaceCh c then [' '] else [c]
  | c1 :: c2 :: rest =>
      if isSpaceCh c1 && isSpaceCh c2 then collapseWs (c2 :: rest)
      else (if isSpaceCh c1 then ' ' else c1) :: collapseWs (c2 :: rest)

/-- str.strip: remove whitespace from both ends. -/
def stripEnds (t : Text) : Text :=
  ((t.dropWhile isSpaceCh).reverse.dropWhile isSpaceCh).reverse

/-- The deterministic textual cleanup inside preprocess_resume: lowercase,
strip special characters, collapse whitespace runs, strip the ends. -/
def cleanupText (t : Text) : Text :=
  stripEnds (collapseWs (removeSpecial (t.map toLowerCh)))

/-- Model of nltk word_tokenize on cleaned text: split on spaces, dropping
empty pieces.  Auxiliary accumulator form. -/
def splitSpAux : Text → Text → List Text
  | [], acc => if acc.isEmpty then [] else [acc.reverse]
  | c :: rest, acc =>
      if c == ' ' then
        (if acc.isEmpty then splitSpAux rest [] else acc.reverse :: splitSpAux rest [])
      else splitSpAux rest (c :: acc)

/-- Model of nltk word_tokenize on cleaned text: split on spaces. -/
def splitOnSpaces (t : Text) : List Text := splitSpAux t []

/-- Python " ".join. -/
def joinSpace : List Text → Text
  | [] => []
  | [w] => w
  | w :: ws => w ++ ' ' :: joinSpace ws

/-- preprocess_resume from src/utils/preprocessing.py (identical logic in
src/resume_job_matcher/utils/resume_processor.py).  The tokenizer tok, the
stopword set stop and the lemmatizer lem are the external NLTK resources,
passed as parameters: fix spacing, lowercase, remove special characters,
collapse spaces, tokenize, drop stopwords, lemmatize, join with spaces. -/
def preprocess_resume (tok : Text → List Text) (stop : List Text)
    (lem : Text → Text) (text : Text) : Text :=
  let cleaned := cleanupText (fix_spacing text)
  let words := tok cleaned
  joinSpace ((words.filter (fun w => !(stop.contains w))).map lem)

/-- The output character set claimed for the normalizer: [a-z0-9 ]. -/
def allowedChar (c : Char) : Bool := isLowerCh c || isDigitCh c || c == ' '

/-- No adjacent pair (c1, c2) in the text satisfies p c1 and q c2. -/
def noPairs (p q : Char → Bool) : Text → Bool
  | [] => true
  | [_] => true
  | c1 :: c2 :: rest => !(p c1 && q c2) && noPairs p q (c2 :: rest)

/-- The first character, if any, is not whitespace. -/
def headOkCT : Text → Bool
  | [] => true
  | c :: _ => !(isSpaceCh c)

/-- Canonical normalized text: only [a-z0-9 ] characters, no two adjacent
spaces, no letter-digit or digit-letter adjacency, and no space at either
end.  This is the shape on which a second normalizer pass is textually
inert. -/
def canonicalText (t : Text) : Bool :=
  t.all allowedChar
  && noPairs isSpaceCh isSpaceCh t
  && noPairs isAlphaCh isDigitCh t
  && noPairs isDigitCh isAlphaCh t
  && headOkCT t
  && headOkCT t.reverse

/-- Embeddings are modelled as vectors of rationals. -/
abbrev Emb := List ℚ

/-- One row of the job catalog CSV (the columns recommend_jobs reads). -/
structure JobRow where
  job_id : Text
  job_title : Text
  category : Text
  job_description : Text
  job_skill_set : Text
deriving DecidableEq, Inhabited

/-- The dictionary recommend_jobs builds for one recommended job. -/
structure Recommendation where
  job_id : Text
  job_title : Text
  category : Text
  job_description : Text
  skills : Text
  similarity_score : ℚ
deriving DecidableEq, Inhabited

/-- Assembling one recommendation dictionary from a catalog row and a score,
as in the loop body of recommend_jobs. -/
def mkRecommendation (job_info : JobRow) (score : ℚ) : Recommendation :=
  ⟨job_info.job_id, job_info.job_title, job_info.category,
    job_info.job_description, job_info.job_skill_set, score⟩

/-- Stable insertion: x is placed before the first element y with le x y.
With le x y meaning "x may come before y", this is one step of a stable
sort. -/
def insertB (le : α → α → Bool) (x : α) : List α → List α
  | [] => [x]
  | y :: l => if le x y then x :: y :: l else y :: insertB le x l

/-- Stable insertion sort; for a total preorder le this has exactly the
semantics of Python's stable list.sort with that comparison. -/
def sortB (le : α → α → Bool) : List α → List α
  | [] => []
  | x :: l => insertB le x (sortB le l)

/-- The ranking step of recommend_jobs: job_scores.sort(key score, reverse of the
ascending order), i.e. a stable sort placing higher scores first, ties kept in
original order. -/
def sortByScoreDesc (l : List (Nat × ℚ)) : List (Nat × ℚ) :=
  sortB (fun a b => decide (b.2 ≤ a.2)) l

/-- recommend_jobs from src/utils/model_utils.py: score every catalog row with
the matching model, pair each score with its row index, stable-sort by
descending score, take the first top_n, and assemble a recommendation from the
catalog row at each selected index.  The matching model is the trained network,
passed as a function. -/
def recommend_jobs (resume_embedding : Emb) (job_embeddings : List Emb)
    (matching_model : Emb → Emb → ℚ) (df : List JobRow) (top_n : Nat) :
    List Recommendation :=
  let similarity_scores := job_embeddings.map (matching_model resume_embedding)
  let job_scores := similarity_scores.enum
  let sorted := sortByScoreDesc job_scores
  (sorted.take top_n).map (fun p => mkRecommendation (df.getD p.1 default) p.2)

/-- The rational 9/10, built without normalization so that kernel evaluation
stays cheap.  Used by the worked example of the spec. -/
def score09 : ℚ := ⟨9, 10, by norm_num, by norm_num⟩

/-- The rational 2/10 in lowest terms. -/
def score02 : ℚ := ⟨1, 5, by norm_num, by norm_num⟩

/-- The rational 6/10 in lowest terms. -/
def score06 : ℚ := ⟨3, 5, by norm_num, by norm_num⟩

/-- Example catalog row 0 for the worked example and witnesses. -/
def exRow0 : JobRow := ⟨String.toList "j1", String.toList "Data Scientist",
  String.toList "Data Science", String.toList "ds role", String.toList "python"⟩

/-- Example catalog row 1 for the worked example and witnesses. -/
def exRow1 : JobRow := ⟨String.toList "j2", String.toList "Web Developer",
  String.toList "Web", String.toList "web role", String.toList "js"⟩

/-- Example catalog row 2 for the worked example and witnesses. -/
def exRow2 : JobRow := ⟨String.toList "j3", String.toList "Data Engineer",
  String.toList "Data Science", String.toList "de role", String.toList "sql"⟩

/-- Example matching model scoring the three example embeddings
[0], [1], [2] as 9/10, 2/10 and 6/10. -/
def exMatchingModel : Emb → Emb → ℚ := fun _ e =>
  if e = [(0 : ℚ)] then score09 else if e = [(1 : ℚ)] then score02 else score06

/-- Auxiliary scan for argmaxIdx. -/
def argmaxIdxAux : List ℚ → Nat → Nat → ℚ → Nat
  | [], _, best, _ => best
  | x :: rest, i, best, bv =>
      if bv < x then argmaxIdxAux rest (i + 1) i x else argmaxIdxAux rest (i + 1) best bv

/-- np.argmax on a vector: the index of the first maximal entry
(0 on the empty list). -/
def argmaxIdx : List ℚ → Nat
  | [] => 0
  | x :: rest => argmaxIdxAux rest 1 0 x

/-- predict_category from src/utils/model_utils.py: run the category model on
the resume embedding, take the argmax index, decode it through the label
encoder (inverse_transform), and report the probability at that index as the
confidence.  The label encoder is its classes_ list: index i decodes to entry
i. -/
def predict_category (category_model : Emb → List ℚ) (label_encoder : List Text)
    (resume_embedding : Emb) : Text × ℚ :=
  let category_probs := category_model resume_embedding
  let idx := argmaxIdx category_probs
  (label_encoder.getD idx [], category_probs.getD idx 0)

/-- The category-prediction step inlined in recommend_jobs of
src/resume_job_matcher/utils/job_matcher.py (lines 155-159): same argmax and
decoding, but the reported confidence is the probability multiplied by 100. -/
def recommend_jobs_category_step (category_model : Emb → List ℚ) (label_encoder : List Text)
    (resume_embedding : Emb) : Text × ℚ :=
  let category_probs := category_model resume_embedding
  let idx := argmaxIdx category_probs
  (label_encoder.getD idx [], category_probs.getD idx 0 * 100)

/-- The two entries of the "Sort by" selectbox in src/app.py. -/
inductive SortOption
  | highToLow
  | lowToHigh
deriving DecidableEq

/-- The category filter applied before sorting in src/app.py (lines 222-225):
none models "All Categories". -/
def filterByCategory (selected : Option Text) (recs : List Recommendation) :
    List Recommendation :=
  match selected with
  | none => recs
  | some cat => recs.filter (fun r => r.category == cat)

/-- The sort_option handling of src/app.py (lines 227-234): Python sorted by
similarity_score, ascending for "Match Score (Low to High)", descending
otherwise; sorted is a stable sort. -/
def applySortOption (opt : SortOption) (recs : List Recommendation) :
    List Recommendation :=
  match opt with
  | SortOption.lowToHigh =>
      sortB (fun a b => decide (a.similarity_score ≤ b.similarity_score)) recs
  | SortOption.highToLow =>
      sortB (fun a b => decide (b.similarity_score ≤ a.similarity_score)) recs

/-- The list of recommendations the display loop of src/app.py renders:
filtered, sorted, and truncated to the first 10. -/
def displayedRecommendations (selected : Option Text) (opt : SortOption)
    (recs : List Recommendation) : List Recommendation :=
  (applySortOption opt (filterByCategory selected recs)).take 10

/-- The visible outputs the request handler of src/app.py can emit. -/
inductive UIEvent
  | errorBox : Text → UIEvent
  | infoBox : Text → UIEvent
  | categoryBanner : Text → ℚ → UIEvent
  | recCard : Nat → Recommendation → UIEvent
deriving DecidableEq

/-- The generic message of the st.error call in the except branch. -/
def errorBoxText : Text := String.toList "Error processing the resume: "

/-- The message of the st.info call in the except branch. -/
def infoBoxText : Text := String.toList "Please make sure the uploaded file is a valid PDF."

/-- The body of the try block in src/app.py (lines 175-191): extract the text,
normalize it, embed it, predict the category, compute the recommendations.
Each stage may raise; raising is modelled by Except. -/
def resumePipeline (extract : Except Text Text) (norm : Text → Except Text Text)
    (embed : Text → Except Text Emb) (predict : Emb → Except Text (Text × ℚ))
    (recommend : Emb → Except Text (List Recommendation)) :
    Except Text ((Text × ℚ) × List Recommendation) := do
  let resume_text ← extract
  let cleaned_resume ← norm resume_text
  let resume_embedding ← embed cleaned_resume
  let prediction ← predict resume_embedding
  let recommendations ← recommend resume_embedding
  pure (prediction, recommendations)

/-- Whether a UI event is a recommendation card. -/
def isRecCard : UIEvent → Bool
  | UIEvent.recCard _ _ => true
  | _ => false

/-- The uploaded-file handling of src/app.py (lines 172-254): one try/except
around the whole request.  On success the category banner and the displayed
recommendation cards are emitted; on any exception exactly the generic error
box and the info box are emitted. -/
def processUploadedFile (extract : Except Text Text) (norm : Text → Except Text Text)
    (embed : Text → Except Text Emb) (predict : Emb → Except Text (Text × ℚ))
    (recommend : Emb → Except Text (List Recommendation))
    (selected : Option Text) (opt : SortOption) : List UIEvent :=
  match resumePipeline extract norm embed predict recommend with
  | Except.error msg =>
      [UIEvent.errorBox (errorBoxText ++ msg), UIEvent.infoBox infoBoxText]
  | Except.ok (prediction, recommendations) =>
      UIEvent.categoryBanner prediction.1 prediction.2 ::
        (displayedRecommendations selected opt recommendations).enum.map
          (fun p => UIEvent.recCard (p.1 + 1) p.2)

/-- Lexicographic order on strings by code point, the order np.unique sorts
in. -/
def lexLe : Text → Text → Bool
  | [], _ => true
  | _ :: _, [] => false
  | c1 :: r1, c2 :: r2 =>
      if c1 < c2 then true else if c2 < c1 then false else lexLe r1 r2

/-- sklearn LabelEncoder.fit on the category column: classes_ is the sorted
list of distinct category names; index i maps to entry i. -/
def fit_label_encoder (categories : List Text) : List Text :=
  sortB lexLe categories.dedup

/-- The label-encoder acquisition in initialize_system of src/app.py (lines
143-161): when the matching model, the category model and the label-encoder
pickle all exist on disk, the persisted encoder is loaded; otherwise
train_models fits a fresh one from the catalog and it is then persisted. -/
def initialize_system_label_encoder (matchingSaved categorySaved encoderSaved : Bool)
    (persisted : List Text) (categories : List Text) : List Text :=
  if matchingSaved && categorySaved && encoderSaved then persisted
  else fit_label_encoder categories

/-- The label-encoder acquisition in load_models_and_data of
src/resume_job_matcher/utils/job_matcher.py (lines 27-31): a fresh
LabelEncoder is fit from the catalog on every startup; nothing is loaded. -/
def load_models_and_data_label_encoder (categories : List Text) : List Text :=
  fit_label_encoder categories

theorem not_upper_of_allowed {c : Char} (h : allowedChar c = true) :
    isUpperCh c = false := by
  simp only [allowedChar, isLowerCh, isDigitCh, Bool.or_eq_true, Bool.and_eq_true,
    decide_eq_true_eq, beq_iff_eq] at h
  simp only [isUpperCh, Bool.and_eq_false_iff, Bool.not_eq_true, decide_eq_false_iff_not]
  rcases h with (⟨h1, h2⟩ | ⟨h1, h2⟩) | h1
  · exact Or.inr fun hz => absurd (le_trans h1 hz) (by decide)
  · exact Or.inl fun hz => absurd (le_trans hz h2) (by decide)
  · subst h1; exact Or.inl (by decide)

theorem space_eq_of_allowed {c : Char} (h : allowedChar c = true)
    (hs : isSpaceCh c = true) : c = ' ' := by
  simp only [isSpaceCh, Bool.or_eq_true, beq_iff_eq] at hs
  rcases hs with ((((h1 | h1) | h1) | h1) | h1) | h1 <;> subst h1 <;>
    first
      | rfl
      | exact absurd h (by decide)

theorem spaceCh_of_allowed {c : Char} (h : allowedChar c = true) :
    (isLowerCh c || isDigitCh c || isSpaceCh c) = true := by
  simp only [allowedChar, Bool.or_eq_true, beq_iff_eq] at h
  rcases h with (h1 | h1) | h1
  · simp [h1]
  · simp [h1]
  · subst h1; decide

theorem insertBetween_eq_self (p q : Char → Bool) :
    ∀ t : Text, noPairs p q t = true → insertBetween p q t = t
  | [], _ => rfl
  | [_], _ => rfl
  | c1 :: c2 :: rest, h => by
      simp only [noPairs, Bool.and_eq_true, Bool.not_eq_true'] at h
      simp [insertBetween, h.1, insertBetween_eq_self p q (c2 :: rest) h.2]

theorem spaceCamelPairs_eq_self :
    ∀ t : Text, noPairs isLowerCh isUpperCh t = true → spaceCamelPairs t = t
  | [], _ => rfl
  | [_], _ => rfl
  | c1 :: c2 :: rest, h => by
      simp only [noPairs, Bool.and_eq_true, Bool.not_eq_true'] at h
      simp [spaceCamelPairs, h.1, spaceCamelPairs_eq_self (c2 :: rest) h.2]

theorem noPairs_of_no_q (p q : Char → Bool) :
    ∀ t : Text, (∀ c ∈ t, q c = false) → noPairs p q t = true
  | [], _ => rfl
  | [_], _ => rfl
  | c1 :: c2 :: rest, h => by
      simp only [noPairs, Bool.and_eq_true, Bool.not_eq_true']
      exact ⟨by simp [h c2 (by simp)], noPairs_of_no_q p q (c2 :: rest)
        (fun c hc => h c (List.mem_cons_of_mem c1 hc))⟩

theorem map_toLowerCh_eq_self {t : Text} (hall : ∀ c ∈ t, allowedChar c = true) :
    t.map toLowerCh = t := by
  have h : ∀ c ∈ t, toLowerCh c = id c := fun c hc => by
    simp [toLowerCh, not_upper_of_allowed (hall c hc)]
  rw [List.map_congr_left h, List.map_id]

theorem removeSpecial_eq_self {t : Text} (hall : ∀ c ∈ t, allowedChar c = true) :
    removeSpecial t = t :=
  List.filter_eq_self.mpr (fun c hc => spaceCh_of_allowed (hall c hc))

theorem collapseWs_eq_self :
    ∀ t : Text, (∀ c ∈ t, allowedChar c = true) →
      noPairs isSpaceCh isSpaceCh t = true → collapseWs t = t
  | [], _, _ => rfl
  | [c], hall, _ => by
      by_cases hsp : isSpaceCh c = true
      · have hc : c = ' ' := space_eq_of_allowed (hall c (by simp)) hsp
        simp [collapseWs, hsp, hc]
      · simp [collapseWs, hsp]
  | c1 :: c2 :: rest, hall, hnp => by
      simp only [noPairs, Bool.and_eq_true, Bool.not_eq_true'] at hnp
      have ih := collapseWs_eq_self (c2 :: rest)
        (fun c hc => hall c (List.mem_cons_of_mem c1 hc)) hnp.2
      by_cases h1 : isSpaceCh c1 = true
      · have hc1 : c1 = ' ' := space_eq_of_allowed (hall c1 (by simp)) h1
        have h2 : isSpaceCh c2 = false := by
          rcases Bool.and_eq_false_iff.mp hnp.1 with h | h
          · rw [h1] at h; cases h
          · exact h
        simp [collapseWs, hnp.1, h1, hc1, h2, ih]
      · simp [collapseWs, hnp.1, h1, ih]

theorem dropWhile_eq_self_of_headOk {t : Text} (h : headOkCT t = true) :
    t.dropWhile isSpaceCh = t := by
  cases t with
  | nil => rfl
  | cons c r =>
      simp only [headOkCT, Bool.not_eq_true'] at h
      simp [List.dropWhile_cons, h]

theorem stripEnds_eq_self {t : Text} (h1 : headOkCT t = true)
    (h2 : headOkCT t.reverse = true) : stripEnds t = t := by
  unfold stripEnds
  rw [dropWhile_eq_self_of_headOk h1, dropWhile_eq_self_of_headOk h2,
    List.reverse_reverse]

theorem fix_spacing_eq_self {t : Text} (h : canonicalText t = true) :
    fix_spacing t = t := by
  have h' := h
  simp only [canonicalText, Bool.and_eq_true] at h'
  obtain ⟨⟨⟨⟨⟨hall, hsp⟩, hAD⟩, hDA⟩, hhd⟩, hrev⟩ := h'
  have hup : ∀ c ∈ t, isUpperCh c = false := fun c hc =>
    not_upper_of_allowed (List.all_eq_true.mp hall c hc)
  have h1 : noPairs isLowerCh isUpperCh t = true := noPairs_of_no_q _ _ t hup
  unfold fix_spacing
  rw [insertBetween_eq_self _ _ t h1, insertBetween_eq_self _ _ t hAD,
    insertBetween_eq_self _ _ t hDA, spaceCamelPairs_eq_self t h1]

theorem cleanupText_eq_self {t : Text} (h : canonicalText t = true) :
    cleanupText t = t := by
  have h' := h
  simp only [canonicalText, Bool.and_eq_true] at h'
  obtain ⟨⟨⟨⟨⟨hall, hsp⟩, hAD⟩, hDA⟩, hhd⟩, hrev⟩ := h'
  have hall' : ∀ c ∈ t, allowedChar c = true := List.all_eq_true.mp hall
  unfold cleanupText
  rw [map_toLowerCh_eq_self hall', removeSpecial_eq_self hall',
    collapseWs_eq_self t hall' hsp, stripEnds_eq_self hhd hrev]

theorem allowed_of_keep_not_space {c : Char}
    (h : (isLowerCh c || isDigitCh c || isSpaceCh c) = true)
    (hs : isSpaceCh c = false) : allowedChar c = true := by
  simp only [Bool.or_eq_true] at h
  rcases h with (h1 | h1) | h1
  · simp [allowedChar, h1]
  · simp [allowedChar, h1]
  · rw [h1] at hs; cases hs

theorem collapseWs_chars :
    ∀ t : Text, (∀ c ∈ t, (isLowerCh c || isDigitCh c || isSpaceCh c) = true) →
      ∀ c ∈ collapseWs t, allowedChar c = true
  | [], _, c, hc => by simp [collapseWs] at hc
  | [c0], h, c, hc => by
      by_cases hsp : isSpaceCh c0 = true
      · simp only [collapseWs, hsp, if_true, List.mem_singleton] at hc
        subst hc; decide
      · have hsp' : isSpaceCh c0 = false := by revert hsp; cases isSpaceCh c0 <;> simp
        simp only [collapseWs, hsp', Bool.false_eq_true, if_false,
          List.mem_singleton] at hc
        subst hc
        exact allowed_of_keep_not_space (h c (by simp)) hsp'
  | c1 :: c2 :: rest, h, c, hc => by
      by_cases hb : (isSpaceCh c1 && isSpaceCh c2) = true
      · simp only [collapseWs, hb, if_true] at hc
        exact collapseWs_chars (c2 :: rest)
          (fun c' hc' => h c' (List.mem_cons_of_mem c1 hc')) c hc
      · have hb' : (isSpaceCh c1 && isSpaceCh c2) = false := by
          revert hb; cases (isSpaceCh c1 && isSpaceCh c2) <;> simp
        simp only [collapseWs, hb', Bool.false_eq_true, if_false] at hc
        rcases List.mem_cons.mp hc with rfl | htl
        · by_cases h1 : isSpaceCh c1 = true
          · simp only [h1, if_true]; decide
          · have h1' : isSpaceCh c1 = false := by revert h1; cases isSpaceCh c1 <;> simp
            simp only [h1', Bool.false_eq_true, if_false]
            exact allowed_of_keep_not_space (h c1 (by simp)) h1'
        · exact collapseWs_chars (c2 :: rest)
            (fun c' hc' => h c' (List.mem_cons_of_mem c1 hc')) c htl

theorem mem_stripEnds {t : Text} {c : Char} (h : c ∈ stripEnds t) : c ∈ t := by
  unfold stripEnds at h
  have h1 := List.mem_reverse.mp h
  have h2 := (List.dropWhile_sublist (l := (t.dropWhile isSpaceCh).reverse)
    (p := isSpaceCh)).subset h1
  exact (List.dropWhile_sublist (l := t) (p := isSpaceCh)).subset (List.mem_reverse.mp h2)

theorem cleanupText_chars (t : Text) : ∀ c ∈ cleanupText t, allowedChar c = true := by
  intro c hc
  have h1 : c ∈ collapseWs (removeSpecial (t.map toLowerCh)) := mem_stripEnds hc
  exact collapseWs_chars _ (fun c' hc' => (List.mem_filter.mp hc').2) c h1

theorem mem_joinSpace :
    ∀ (ws : List Text) (c : Char), c ∈ joinSpace ws → c = ' ' ∨ ∃ w ∈ ws, c ∈ w
  | [], c, hc => by simp [joinSpace] at hc
  | [w], c, hc => Or.inr ⟨w, by simp, by simpa [joinSpace] using hc⟩
  | w :: w2 :: ws, c, hc => by
      simp only [joinSpace] at hc
      rcases List.mem_append.mp hc with h | h
      · exact Or.inr ⟨w, by simp, h⟩
      · rcases List.mem_cons.mp h with rfl | h2
        · exact Or.inl rfl
        · rcases mem_joinSpace (w2 :: ws) c h2 with h3 | ⟨w', hw', hcw'⟩
          · exact Or.inl h3
          · exact Or.inr ⟨w', List.mem_cons_of_mem w hw', hcw'⟩

theorem splitSpAux_chars :
    ∀ (t acc w : Text), w ∈ splitSpAux t acc → ∀ c ∈ w, c ∈ t ∨ c ∈ acc
  | [], acc, w, hw => fun c hc => by
      by_cases h : acc.isEmpty
      · simp [splitSpAux, h] at hw
      · simp only [splitSpAux, h, Bool.false_eq_true, if_false,
          List.mem_singleton] at hw
        subst hw
        exact Or.inr (List.mem_reverse.mp hc)
  | ch :: rest, acc, w, hw => fun c hc => by
      by_cases h : (ch == ' ') = true
      · by_cases h2 : acc.isEmpty
        · simp only [splitSpAux, h, h2, if_true] at hw
          rcases splitSpAux_chars rest [] w hw c hc with h3 | h3
          · exact Or.inl (List.mem_cons_of_mem ch h3)
          · simp at h3
        · simp only [splitSpAux, h, h2, Bool.false_eq_true, if_false, if_true,
            List.mem_cons] at hw
          rcases hw with rfl | hw2
          · exact Or.inr (List.mem_reverse.mp hc)
          · rcases splitSpAux_chars rest [] w hw2 c hc with h3 | h3
            · exact Or.inl (List.mem_cons_of_mem ch h3)
            · simp at h3
      · have h' : (ch == ' ') = false := by revert h; cases (ch == ' ') <;> simp
        simp only [splitSpAux, h', Bool.false_eq_true, if_false] at hw
        rcases splitSpAux_chars rest (ch :: acc) w hw c hc with h3 | h3
        · exact Or.inl (List.mem_cons_of_mem ch h3)
        · rcases List.mem_cons.mp h3 with rfl | h4
          · exact Or.inl (List.mem_cons_self _ _)
          · exact Or.inr h4

/-- Characters of the modelled tokenizer's tokens all occur in its input. -/
theorem splitOnSpaces_chars : ∀ (t w : Text), w ∈ splitOnSpaces t → ∀ c ∈ w, c ∈ t :=
  fun t w hw c hc => (splitSpAux_chars t [] w hw c hc).resolve_right (by simp)

/-- Claim C4: for every input string, the output of preprocess_resume contains only
characters from [a-z0-9 ], provided the external tokenizer only returns
characters of its input and the external lemmatizer maps strings over
[a-z0-9 ] to strings over [a-z0-9 ]. -/
theorem preprocess_resume_charset (tok : Text → List Text) (stop : List Text)
    (lem : Text → Text)
    (htok : ∀ t w, w ∈ tok t → ∀ c ∈ w, c ∈ t)
    (hlem : ∀ w, (∀ c ∈ w, allowedChar c = true) →
      ∀ c ∈ lem w, allowedChar c = true)
    (s : Text) : ∀ c ∈ preprocess_resume tok stop lem s, allowedChar c = true := by
  intro c hc
  simp only [preprocess_resume] at hc
  rcases mem_joinSpace _ c hc with rfl | ⟨w, hw, hcw⟩
  · decide
  · obtain ⟨w', hw', rfl⟩ := List.mem_map.mp hw
    have hw'' : w' ∈ tok (cleanupText (fix_spacing s)) := (List.mem_filter.mp hw').1
    have hchars : ∀ c' ∈ w', allowedChar c' = true := fun c' hc' =>
      cleanupText_chars _ c' (htok _ _ hw'' c' hc')
    exact hlem w' hchars c hcw

/-- Witness for claim C4 with the modelled tokenizer, an empty stopword list,
the identity lemmatizer and a concrete resume string. -/
theorem preprocess_resume_charset_witness :
    (preprocess_resume splitOnSpaces [] (fun w => w)
      (String.toList "Senior C++ Developer, 7yrs experience")).all allowedChar = true :=
  List.all_eq_true.mpr
    (preprocess_resume_charset splitOnSpaces [] (fun w => w)
      splitOnSpaces_chars (fun _ h => h)
      (String.toList "Senior C++ Developer, 7yrs experience"))

/-- Claim C5, counterexample: preprocess_resume is not idempotent.  On "abc#123" the
special-character strip glues a letter run to a digit run; the second pass's
fix_spacing then inserts a space at that letter-digit boundary. -/
theorem preprocess_resume_not_idem :
    preprocess_resume splitOnSpaces [] (fun w => w)
        (preprocess_resume splitOnSpaces [] (fun w => w) (String.toList "abc#123")) ≠
      preprocess_resume splitOnSpaces [] (fun w => w) (String.toList "abc#123") := by
  decide

/-- Claim C5, amended: preprocess_resume is idempotent on inputs whose first output
is canonical (characters in [a-z0-9 ], single separating spaces, no
letter-digit adjacency) and on which the second tokenize/stopword/lemmatize
pass reproduces the output verbatim. -/
theorem preprocess_resume_idem (tok : Text → List Text) (stop : List Text)
    (lem : Text → Text) (s : Text)
    (hcanon : canonicalText (preprocess_resume tok stop lem s) = true)
    (hround : joinSpace (((tok (preprocess_resume tok stop lem s)).filter
        (fun w => !(stop.contains w))).map lem) = preprocess_resume tok stop lem s) :
    preprocess_resume tok stop lem (preprocess_resume tok stop lem s)
      = preprocess_resume tok stop lem s := by
  have h1 : cleanupText (fix_spacing (preprocess_resume tok stop lem s))
      = preprocess_resume tok stop lem s := by
    rw [fix_spacing_eq_self hcanon, cleanupText_eq_self hcanon]
  show joinSpace (((tok (cleanupText (fix_spacing (preprocess_resume tok stop lem s)))).filter
      (fun w => !(stop.contains w))).map lem) = preprocess_resume tok stop lem s
  rw [h1]
  exact hround

/-- Witness for the amended claim C5 at a concrete input whose normal form is
canonical. -/
theorem preprocess_resume_idem_witness :
    preprocess_resume splitOnSpaces [] (fun w => w)
        (preprocess_resume splitOnSpaces [] (fun w => w)
          (String.toList "Machine Learning, 5 years!"))
      = preprocess_resume splitOnSpaces [] (fun w => w)
        (String.toList "Machine Learning, 5 years!") :=
  preprocess_resume_idem splitOnSpaces [] (fun w => w)
    (String.toList "Machine Learning, 5 years!") (by decide) (by decide)

/-- Claim C6: fix_spacing turns "SoftwareEngineer2Years" into
"Software Engineer 2 Years": boundary spaces are inserted at the
lowercase-to-uppercase, letter-to-digit and digit-to-letter transitions,
before any lowercasing. -/
theorem fix_spacing_example :
    fix_spacing (String.toList "SoftwareEngineer2Years")
      = String.toList "Software Engineer 2 Years" := by
  decide

theorem insertB_perm (le : α → α → Bool) (x : α) :
    ∀ l : List α, List.Perm (insertB le x l) (x :: l)
  | [] => List.Perm.refl _
  | y :: l => by
      by_cases h : le x y = true
      · simp [insertB, h]
      · have h' : le x y = false := by revert h; cases le x y <;> simp
        simp only [insertB, h', Bool.false_eq_true, if_false]
        exact ((insertB_perm le x l).cons y).trans (List.Perm.swap x y l)

theorem sortB_perm (le : α → α → Bool) :
    ∀ l : List α, List.Perm (sortB le l) l
  | [] => List.Perm.refl _
  | x :: l => (insertB_perm le x (sortB le l)).trans ((sortB_perm le l).cons x)

theorem mem_insertB {le : α → α → Bool} {x a : α} {l : List α}
    (h : a ∈ insertB le x l) : a = x ∨ a ∈ l := by
  exact List.mem_cons.mp ((insertB_perm le x l).mem_iff.mp h)

theorem pairwise_insertB {le : α → α → Bool} {Q : α → α → Prop}
    (htot : ∀ a b, le a b = true ∨ le b a = true)
    (htrans : ∀ a b c, le a b = true → le b c = true → le a c = true) :
    ∀ (x : α) (l : List α), (∀ y ∈ l, Q x y) →
      l.Pairwise (fun a b => le a b = true ∧ (le b a = true → Q a b)) →
      (insertB le x l).Pairwise (fun a b => le a b = true ∧ (le b a = true → Q a b))
  | x, [], _, _ => by simp [insertB]
  | x, y :: t, hx, hl => by
      rcases List.pairwise_cons.mp hl with ⟨hyt, ht⟩
      by_cases hxy : le x y = true
      · simp only [insertB, hxy, if_true]
        refine List.pairwise_cons.mpr ⟨?_, hl⟩
        intro z hz
        rcases List.mem_cons.mp hz with rfl | hzt
        · exact ⟨hxy, fun _ => hx z (List.mem_cons_self _ _)⟩
        · exact ⟨htrans x y z hxy (hyt z hzt).1,
            fun _ => hx z (List.mem_cons_of_mem y hzt)⟩
      · have hxy' : le x y = false := by revert hxy; cases le x y <;> simp
        have hyx : le y x = true := (htot x y).resolve_left (by simp [hxy'])
        simp only [insertB, hxy', Bool.false_eq_true, if_false]
        refine List.pairwise_cons.mpr ⟨?_, ?_⟩
        · intro w hw
          rcases mem_insertB hw with rfl | hwt
          · exact ⟨hyx, fun hxy2 => by rw [hxy'] at hxy2; cases hxy2⟩
          · exact hyt w hwt
        · exact pairwise_insertB htot htrans x t
            (fun z hz => hx z (List.mem_cons_of_mem y hz)) ht

theorem pairwise_sortB {le : α → α → Bool} {Q : α → α → Prop}
    (htot : ∀ a b, le a b = true ∨ le b a = true)
    (htrans : ∀ a b c, le a b = true → le b c = true → le a c = true) :
    ∀ (l : List α), l.Pairwise Q →
      (sortB le l).Pairwise (fun a b => le a b = true ∧ (le b a = true → Q a b))
  | [], _ => by simp [sortB]
  | x :: l, h => by
      rcases List.pairwise_cons.mp h with ⟨hx, hl⟩
      exact pairwise_insertB htot htrans x (sortB le l)
        (fun y hy => hx y ((sortB_perm le l).mem_iff.mp hy))
        (pairwise_sortB htot htrans l hl)

theorem enumFrom_pairwise_fst_lt :
    ∀ (n : Nat) (l : List α), (l.enumFrom n).Pairwise (fun a b => a.1 < b.1)
  | _, [] => by simp
  | n, x :: l => by
      simp only [List.enumFrom]
      refine List.pairwise_cons.mpr ⟨?_, enumFrom_pairwise_fst_lt (n + 1) l⟩
      rintro ⟨i, a⟩ hp
      have h := (List.mk_mem_enumFrom_iff_le_and_getElem?_sub.mp hp).1
      exact Nat.lt_of_succ_le h

theorem enum_pairwise_fst_lt (l : List α) : l.enum.Pairwise (fun a b => a.1 < b.1) :=
  enumFrom_pairwise_fst_lt 0 l

/-- Claim C1: for every catalog with one embedding per row and every top_n,
recommend_jobs returns exactly min(top_n, N) recommendations, and every
recommendation is assembled from a row present in the catalog. -/
theorem recommend_jobs_length_mem (resume_embedding : Emb) (job_embeddings : List Emb)
    (matching_model : Emb → Emb → ℚ) (df : List JobRow) (top_n : Nat)
    (h : job_embeddings.length = df.length) :
    (recommend_jobs resume_embedding job_embeddings matching_model df top_n).length
        = min top_n df.length ∧
      ∀ r ∈ recommend_jobs resume_embedding job_embeddings matching_model df top_n,
        ∃ row ∈ df, ∃ s : ℚ, r = mkRecommendation row s := by
  have hlen : (sortByScoreDesc (job_embeddings.map
      (matching_model resume_embedding)).enum).length = df.length := by
    rw [sortByScoreDesc, (sortB_perm _ _).length_eq, List.enum_length,
      List.length_map, h]
  constructor
  · show (((sortByScoreDesc _).take top_n).map _).length = _
    rw [List.length_map, List.length_take, hlen]
  · intro r hr
    simp only [recommend_jobs, List.mem_map] at hr
    obtain ⟨p, hp, rfl⟩ := hr
    have hp2 : p ∈ sortByScoreDesc (job_embeddings.map
        (matching_model resume_embedding)).enum := (List.take_sublist _ _).subset hp
    have hp3 : p ∈ (job_embeddings.map (matching_model resume_embedding)).enum :=
      (sortB_perm _ _).mem_iff.mp (by rw [sortByScoreDesc] at hp2; exact hp2)
    have hidx : p.1 < df.length := by
      have h4 := List.mem_enum_iff_getElem?.mp hp3
      obtain ⟨hlt, _⟩ := List.getElem?_eq_some.mp h4
      rwa [List.length_map, h] at hlt
    refine ⟨df.getD p.1 default, ?_, p.2, rfl⟩
    rw [List.getD_eq_getElem df default hidx]
    exact List.getElem_mem hidx

/-- Claim C2: the ranking of recommend_jobs stable-sorts (index, score) pairs
by descending score, so ties are broken by original catalog order; and on a
3-row catalog scored [0.9, 0.2, 0.6] with top_n = 2 it returns the rows scored
0.9 and 0.6 in that order. -/
theorem recommend_jobs_stable_sort :
    (∀ scores : List ℚ, (sortByScoreDesc scores.enum).Pairwise
        (fun a b => b.2 < a.2 ∨ (a.2 = b.2 ∧ a.1 < b.1)))
    ∧ score09 = 9 / 10 ∧ score02 = 2 / 10 ∧ score06 = 6 / 10
    ∧ recommend_jobs [] [[(0 : ℚ)], [(1 : ℚ)], [(2 : ℚ)]] exMatchingModel
        [exRow0, exRow1, exRow2] 2
      = [mkRecommendation exRow0 score09, mkRecommendation exRow2 score06] := by
  refine ⟨?_, ?_, ?_, ?_, by decide⟩
  · intro scores
    have htot : ∀ a b : Nat × ℚ,
        (decide (b.2 ≤ a.2)) = true ∨ (decide (a.2 ≤ b.2)) = true := fun a b => by
      rcases le_total b.2 a.2 with h | h
      · exact Or.inl (decide_eq_true h)
      · exact Or.inr (decide_eq_true h)
    have htrans : ∀ a b c : Nat × ℚ, decide (b.2 ≤ a.2) = true →
        decide (c.2 ≤ b.2) = true → decide (c.2 ≤ a.2) = true := fun a b c h1 h2 =>
      decide_eq_true (le_trans (of_decide_eq_true h2) (of_decide_eq_true h1))
    have h := pairwise_sortB htot htrans scores.enum (enum_pairwise_fst_lt scores)
    rw [sortByScoreDesc]
    refine h.imp fun hab => ?_
    obtain ⟨h1, h2⟩ := hab
    rcases lt_or_eq_of_le (of_decide_eq_true h1) with hlt | heq
    · exact Or.inl hlt
    · exact Or.inr ⟨heq.symm, h2 (decide_eq_true (le_of_eq heq.symm))⟩
  · rw [score09, Rat.mk'_eq_divInt, Rat.divInt_eq_div]; norm_num
  · rw [score02, Rat.mk'_eq_divInt, Rat.divInt_eq_div]; norm_num
  · rw [score06, Rat.mk'_eq_divInt, Rat.divInt_eq_div]; norm_num

/-- Witness for claim C1 at a concrete two-row catalog with top_n = 5. -/
theorem recommend_jobs_length_mem_witness :
    ([[(1 : ℚ)], [(2 : ℚ)]] : List Emb).length = ([exRow0, exRow1] : List JobRow).length
    ∧ (recommend_jobs [] [[(1 : ℚ)], [(2 : ℚ)]] exMatchingModel [exRow0, exRow1] 5).length
        = min 5 ([exRow0, exRow1] : List JobRow).length :=
  ⟨rfl, (recommend_jobs_length_mem [] [[(1 : ℚ)], [(2 : ℚ)]] exMatchingModel
    [exRow0, exRow1] 5 rfl).1⟩

/-- Claim C9: two runs of recommend_jobs on the same resume embedding, the
same catalog embeddings and the same model weights return identical
recommendation lists (same rows, same scores, same order). -/
theorem recommend_jobs_deterministic (resume_embedding : Emb) (job_embeddings : List Emb)
    (matching_model : Emb → Emb → ℚ) (df : List JobRow) (top_n : Nat)
    (run1 run2 : List Recommendation)
    (h1 : run1 = recommend_jobs resume_embedding job_embeddings matching_model df top_n)
    (h2 : run2 = recommend_jobs resume_embedding job_embeddings matching_model df top_n) :
    run1 = run2 :=
  h1.trans h2.symm

/-- Witness for claim C9 at a concrete input. -/
theorem recommend_jobs_deterministic_witness :
    recommend_jobs [] [[(0 : ℚ)]] exMatchingModel [exRow0] 10
      = recommend_jobs [] [[(0 : ℚ)]] exMatchingModel [exRow0] 10 :=
  recommend_jobs_deterministic [] [[(0 : ℚ)]] exMatchingModel [exRow0] 10 _ _ rfl rfl

/-- Claim C10: on the same embedding, model and label encoder, the category
step inside recommend_jobs of job_matcher.py predicts the same category name
as predict_category of model_utils.py, and its confidence is 100 times the
confidence of the latter. -/
theorem category_step_refines_predict (category_model : Emb → List ℚ)
    (label_encoder : List Text) (resume_embedding : Emb) :
    (recommend_jobs_category_step category_model label_encoder resume_embedding).1
        = (predict_category category_model label_encoder resume_embedding).1
      ∧ (recommend_jobs_category_step category_model label_encoder resume_embedding).2
        = 100 * (predict_category category_model label_encoder resume_embedding).2 := by
  refine ⟨rfl, ?_⟩
  simp only [recommend_jobs_category_step, predict_category]
  exact mul_comm _ _

theorem pairwise_trivial (l : List α) : l.Pairwise (fun _ _ => True) := by
  induction l with
  | nil => simp
  | cons x t ih => simp [ih]

/-- Claim C7: the displayed recommendation list is ordered as requested by the
sort option: scores are non-increasing for "Match Score (High to Low)" and
non-decreasing for "Match Score (Low to High)", for every set of
recommendations and every category filter. -/
theorem displayed_recommendations_sorted (selected : Option Text)
    (recs : List Recommendation) :
    (displayedRecommendations selected SortOption.highToLow recs).Pairwise
        (fun a b => b.similarity_score ≤ a.similarity_score)
      ∧ (displayedRecommendations selected SortOption.lowToHigh recs).Pairwise
        (fun a b => a.similarity_score ≤ b.similarity_score) := by
  constructor
  · have htot : ∀ a b : Recommendation,
        decide (b.similarity_score ≤ a.similarity_score) = true ∨
          decide (a.similarity_score ≤ b.similarity_score) = true := fun a b => by
      rcases le_total b.similarity_score a.similarity_score with h | h
      · exact Or.inl (decide_eq_true h)
      · exact Or.inr (decide_eq_true h)
    have htrans : ∀ a b c : Recommendation,
        decide (b.similarity_score ≤ a.similarity_score) = true →
        decide (c.similarity_score ≤ b.similarity_score) = true →
        decide (c.similarity_score ≤ a.similarity_score) = true := fun a b c h1 h2 =>
      decide_eq_true (le_trans (of_decide_eq_true h2) (of_decide_eq_true h1))
    have h := pairwise_sortB htot htrans (filterByCategory selected recs)
      (pairwise_trivial _)
    have h2 := h.imp (fun hab => of_decide_eq_true hab.1)
    simp only [displayedRecommendations, applySortOption]
    exact h2.sublist (List.take_sublist _ _)
  · have htot : ∀ a b : Recommendation,
        decide (a.similarity_score ≤ b.similarity_score) = true ∨
          decide (b.similarity_score ≤ a.similarity_score) = true := fun a b => by
      rcases le_total a.similarity_score b.similarity_score with h | h
      · exact Or.inl (decide_eq_true h)
      · exact Or.inr (decide_eq_true h)
    have htrans : ∀ a b c : Recommendation,
        decide (a.similarity_score ≤ b.similarity_score) = true →
        decide (b.similarity_score ≤ c.similarity_score) = true →
        decide (a.similarity_score ≤ c.similarity_score) = true := fun a b c h1 h2 =>
      decide_eq_true (le_trans (of_decide_eq_true h1) (of_decide_eq_true h2))
    have h := pairwise_sortB htot htrans (filterByCategory selected recs)
      (pairwise_trivial _)
    have h2 := h.imp (fun hab => of_decide_eq_true hab.1)
    simp only [displayedRecommendations, applySortOption]
    exact h2.sublist (List.take_sublist _ _)

/-- Claim C8: when any stage of the request pipeline (extraction,
normalization, embedding, prediction or scoring) raises, the single
request-boundary handler catches it, the UI shows exactly the generic error
and info boxes, and no recommendation card is displayed. -/
theorem error_caught_at_boundary (extract : Except Text Text)
    (norm : Text → Except Text Text) (embed : Text → Except Text Emb)
    (predict : Emb → Except Text (Text × ℚ))
    (recommend : Emb → Except Text (List Recommendation))
    (selected : Option Text) (opt : SortOption) (msg : Text)
    (h : resumePipeline extract norm embed predict recommend = Except.error msg) :
    processUploadedFile extract norm embed predict recommend selected opt
        = [UIEvent.errorBox (errorBoxText ++ msg), UIEvent.infoBox infoBoxText]
      ∧ ∀ ev ∈ processUploadedFile extract norm embed predict recommend selected opt,
          isRecCard ev = false := by
  have h1 : processUploadedFile extract norm embed predict recommend selected opt
      = [UIEvent.errorBox (errorBoxText ++ msg), UIEvent.infoBox infoBoxText] := by
    simp only [processUploadedFile, h]
  refine ⟨h1, ?_⟩
  intro ev hev
  rw [h1] at hev
  rcases List.mem_cons.mp hev with rfl | hev2
  · rfl
  · rcases List.mem_cons.mp hev2 with rfl | hev3
    · rfl
    · simp at hev3

/-- Witness for claim C8 with a failing extraction stage. -/
theorem error_caught_at_boundary_witness :
    resumePipeline (Except.error (String.toList "bad pdf"))
        (fun _ => Except.ok []) (fun _ => Except.ok [])
        (fun _ => Except.ok ([], 0)) (fun _ => Except.ok [])
      = Except.error (String.toList "bad pdf")
    ∧ processUploadedFile (Except.error (String.toList "bad pdf"))
          (fun _ => Except.ok []) (fun _ => Except.ok [])
          (fun _ => Except.ok ([], 0)) (fun _ => Except.ok []) none SortOption.highToLow
        = [UIEvent.errorBox (errorBoxText ++ String.toList "bad pdf"),
            UIEvent.infoBox infoBoxText] :=
  ⟨rfl, (error_caught_at_boundary (Except.error (String.toList "bad pdf"))
    (fun _ => Except.ok []) (fun _ => Except.ok [])
    (fun _ => Except.ok ([], 0)) (fun _ => Except.ok []) none SortOption.highToLow
    (String.toList "bad pdf") rfl).1⟩

/-- Claim C3, counterexample: the resume_job_matcher variant recomputes the
label encoder from the catalog on every startup instead of loading a persisted
mapping: with catalog categories [b, a] it always produces the freshly sorted
classes [a, b], regardless of any persisted mapping such as [b, a]. -/
theorem label_encoder_recomputed_counterexample :
    load_models_and_data_label_encoder [String.toList "b", String.toList "a"]
        ≠ [String.toList "b", String.toList "a"]
      ∧ load_models_and_data_label_encoder [String.toList "b", String.toList "a"]
        = [String.toList "a", String.toList "b"] := by
  decide

/-- Claim C3, amended: in the src/app.py variant, on startups where all three
persisted artifacts exist, the label-encoder mapping is exactly the loaded
persisted one (hence identical across restarts); the resume_job_matcher
variant instead refits the encoder from the catalog on every startup. -/
theorem label_encoder_loading (persisted : List Text) (categories : List Text) :
    initialize_system_label_encoder true true true persisted categories = persisted
      ∧ load_models_and_data_label_encoder categories = fit_label_encoder categories :=
  ⟨rfl, rfl⟩

